import Mathlib

/-!
Shallow embedding of `src/dirwatcher.py` (jontaylor224/dirwatcher).

The program polls a directory: it reconciles a mutable mapping
`watched_files : filename → offset` against the directory listing
(`watch_directory`, lines 43-65), scans each watched file from its stored
offset (`scan_single_file`, lines 31-40), and runs a signal-interruptible
main loop (`main`, lines 131-141; `signal_handler`, lines 83-95).

Modelling choices:
- a file's text is a `List Line` (`Line := List Char`), the lines Python's
  file iteration yields;
- the filesystem at a given cycle is `fs : String → Option (List Line)`;
  `none` models an I/O error (unreadable / vanished file), which in the
  Python code raises out of `scan_single_file`;
- the dictionary `watched_files` is an association list in iteration
  order; in Python 2, `dict.keys()` returns a fresh list, which the
  removal phase models by snapshotting the keys before folding.
-/

namespace Dirwatcher

/-- A line of text, as Python's file iteration yields it. -/
abbrev Line := List Char

/-- The `watched_files` dict: filename → last line read (1-based offset). -/
abbrev WatchSet := List (String × Nat)

/-- Tests whether `pre` is a prefix of the second list (char by char). -/
def leadsList : List Char → List Char → Bool
  | [], _ => true
  | _ :: _, [] => false
  | a :: as, b :: bs => a == b && leadsList as bs

/-- Python's substring test `magic in line`: `occursIn needle hay` is true
iff `needle` occurs contiguously inside `hay`. -/
def occursIn (needle : List Char) : List Char → Bool
  | [] => leadsList needle []
  | c :: rest => leadsList needle (c :: rest) || occursIn needle rest

/-- The loop body of `scan_single_file` (dirwatcher.py lines 35-39):
`for line_num, line in enumerate(f): if line_num >= start_line: if magic in
line: report line_num + 1`.  `i` is the current 0-based `line_num`; the
result collects the reported 1-based line numbers in order. -/
def scanLines (magic : List Char) (startLine : Nat) : Nat → List Line → List Nat
  | _, [] => []
  | i, l :: rest =>
    (if startLine ≤ i ∧ occursIn magic l = true then [i + 1] else [])
      ++ scanLines magic startLine (i + 1) rest

/-- The value `scan_single_file` returns (line 40): `line_num + 1`, where
`line_num` is 0 when the file has no lines (the loop never runs and the
initialisation at line 33 stands) and the final 0-based index otherwise. -/
def scanReturn (content : List Line) : Nat :=
  match content with
  | [] => 0 + 1
  | _ :: _ => (content.length - 1) + 1

/-- `scan_single_file(filename, start_line, magic)` (lines 31-40): the
emitted match events (1-based line numbers) and the returned new offset. -/
def scan_single_file (magic : List Char) (startLine : Nat) (content : List Line) :
    List Nat × Nat :=
  (scanLines magic startLine 0 content, scanReturn content)

/-- Python's `file in watched_files` membership test. -/
def hasKey (ws : WatchSet) (k : String) : Bool :=
  ws.any (fun p => p.1 == k)

/-- Python's `watched_files[f]` lookup (first entry with the key). -/
def lookupKey : WatchSet → String → Option Nat
  | [], _ => none
  | (n, off) :: rest, k => if n == k then some off else lookupKey rest k

/-- Python's `file.endswith(ext)` suffix test, over the characters. -/
def endsWithL (file ext : List Char) : Bool :=
  leadsList ext.reverse file.reverse

/-- The extension filter `file.endswith(ext)` applied to a filename. -/
def matchesExt (ext file : String) : Bool :=
  endsWithL file.toList ext.toList

/-- The addition phase of `watch_directory` (lines 49-53): for each `file`
in the listing, if `file.endswith(ext)` and `file not in watched_files`,
set `watched_files[file] = 1` (a fresh dict entry). -/
def addNew (ext : String) : List String → WatchSet → WatchSet
  | [], ws => ws
  | file :: rest, ws =>
    if matchesExt ext file && !(hasKey ws file) then
      addNew ext rest (ws ++ [(file, 1)])
    else
      addNew ext rest ws

/-- The removal phase of `watch_directory` (lines 56-59): iterate a stable
snapshot of the current keys (`watched_files.keys()` is a fresh list in
Python 2) and `pop` every key absent from the listing. -/
def removeGone (listing : List String) (ws : WatchSet) : WatchSet :=
  (ws.map Prod.fst).foldl
    (fun acc k =>
      if listing.contains k then acc else acc.filter (fun p => !(p.1 == k)))
    ws

/-- Result of the scanning phase of one cycle: the updated `watched_files`,
the match events `(filename, 1-based line)` emitted in order, and `some f`
when scanning file `f` raised an I/O error (which in the Python code
propagates out of `watch_directory` and aborts the rest of the loop). -/
structure ScanOut where
  ws : WatchSet
  events : List (String × Nat)
  err : Option String
  deriving Repr, DecidableEq

/-- The scanning phase of `watch_directory` (lines 62-65): for each watched
file in order, read its offset and store `scan_single_file`'s return value.
`fs name = none` models `open` raising: the exception propagates, so the
failing entry and all entries after it keep their stored offsets and emit
no events. -/
def scanWatched (fs : String → Option (List Line)) (magic : List Char) :
    WatchSet → ScanOut
  | [] => ⟨[], [], none⟩
  | (name, off) :: rest =>
    match fs name with
    | none => ⟨(name, off) :: rest, [], some name⟩
    | some content =>
      let r := scanWatched fs magic rest
      ⟨(name, scanReturn content) :: r.ws,
       ((scanLines magic off 0 content).map (fun ln => (name, ln))) ++ r.events,
       r.err⟩

/-- One call of `watch_directory(path, ext, magic)` (lines 43-65) on a
directory snapshot `listing` and filesystem `fs`: add new matching files,
remove vanished ones, then scan every watched file. -/
def watch_directory (fs : String → Option (List Line)) (ext : String)
    (magic : List Char) (listing : List String) (ws : WatchSet) : ScanOut :=
  scanWatched fs magic (removeGone listing (addNew ext listing ws))

/-- The state of the run loop in `main` (lines 131-141) together with the
process-wide `exit_flag` (line 21): `stopped` records that the `while not
exit_flag` test has failed, and `cyclesStarted` counts the
`watch_directory` calls begun so far. -/
structure RunState where
  exit_flag : Bool
  stopped : Bool
  cyclesStarted : Nat
  deriving Repr, DecidableEq

/-- `signal_handler` (lines 83-95): sets the global `exit_flag` to `True`
and changes nothing else. -/
def signal_handler (s : RunState) : RunState :=
  { s with exit_flag := true }

/-- One evaluation of the `while not exit_flag` test (line 131): if the
flag is set the loop exits; otherwise one full `watch_directory` cycle
begins (and, cycle errors being caught at lines 135-139, completes). -/
def loopStep (s : RunState) : RunState :=
  if s.stopped then s
  else if s.exit_flag then { s with stopped := true }
  else { s with cyclesStarted := s.cyclesStarted + 1 }

/-- An observable event of the running process: a trapped OS signal
(delivered by running `signal_handler`), or the loop reaching the
between-cycles point where `exit_flag` is tested. -/
inductive RunEvent
  | sig
  | iter
  deriving Repr, DecidableEq

/-- Effect of one event on the loop state. -/
def runStep (s : RunState) : RunEvent → RunState
  | RunEvent.sig => signal_handler s
  | RunEvent.iter => loopStep s

/-- The loop state after a sequence of events. -/
def runTrace (s : RunState) (evs : List RunEvent) : RunState :=
  evs.foldl runStep s

/-! ### Lemmas about the single-file scanner -/

theorem scanLines_eq_nil (magic : List Char) (startLine : Nat) :
    ∀ (i : Nat) (content : List Line), i + content.length ≤ startLine →
      scanLines magic startLine i content = [] := by
  intro i content
  induction content generalizing i with
  | nil => intro _; rfl
  | cons l rest ih =>
    intro h
    simp only [List.length_cons] at h
    have hlt : ¬ (startLine ≤ i) := by omega
    simp only [scanLines, hlt, false_and, if_false, List.nil_append]
    exact ih (i + 1) (by omega)

theorem scanReturn_pos (content : List Line) : 1 ≤ scanReturn content := by
  cases content <;> simp [scanReturn]

theorem length_le_scanReturn (content : List Line) :
    content.length ≤ scanReturn content := by
  cases content with
  | nil => simp [scanReturn]
  | cons l rest => simp [scanReturn]

theorem scanReturn_eq_length (content : List Line) (h : content ≠ []) :
    scanReturn content = content.length := by
  cases content with
  | nil => exact absurd rfl h
  | cons l rest => simp [scanReturn]

/-! ### Lemmas about lookup and membership in the watch set -/

theorem lookupKey_append (ws ws' : WatchSet) (k : String) :
    lookupKey (ws ++ ws') k =
      match lookupKey ws k with
      | some v => some v
      | none => lookupKey ws' k := by
  induction ws with
  | nil => simp [lookupKey]
  | cons p rest ih =>
    obtain ⟨n, off⟩ := p
    by_cases h : n == k
    · simp [lookupKey, h]
    · simp only [List.cons_append, lookupKey, h, if_false]
      exact ih

theorem hasKey_false_iff (ws : WatchSet) (k : String) :
    hasKey ws k = false ↔ lookupKey ws k = none := by
  induction ws with
  | nil => simp [hasKey, lookupKey]
  | cons p rest ih =>
    obtain ⟨n, off⟩ := p
    by_cases h : n == k
    · simp [hasKey, lookupKey, h]
    · simp only [hasKey, List.any_cons, h, Bool.false_or, lookupKey, if_false]
      exact ih

theorem mem_of_lookupKey_eq_some (ws : WatchSet) (k : String) (v : Nat)
    (h : lookupKey ws k = some v) : (k, v) ∈ ws := by
  induction ws with
  | nil => simp [lookupKey] at h
  | cons p rest ih =>
    obtain ⟨n, off⟩ := p
    by_cases hk : n == k
    · simp only [lookupKey, hk, if_true, Option.some.injEq] at h
      have hnk : n = k := eq_of_beq hk
      rw [hnk, h]
      exact List.mem_cons_self _ _
    · simp only [lookupKey, hk, if_false] at h
      exact List.mem_cons_of_mem _ (ih h)

theorem lookupKey_addNew (ext : String) :
    ∀ (ls : List String) (ws : WatchSet) (k : String),
      lookupKey (addNew ext ls ws) k =
        match lookupKey ws k with
        | some v => some v
        | none => if k ∈ ls ∧ matchesExt ext k = true then some 1 else none := by
  intro ls
  induction ls with
  | nil =>
    intro ws k
    cases h : lookupKey ws k <;> simp [addNew, h]
  | cons file rest ih =>
    intro ws k
    cases hcond : (matchesExt ext file && !(hasKey ws file)) with
    | true =>
      have hstep : addNew ext (file :: rest) ws = addNew ext rest (ws ++ [(file, 1)]) := by
        simp only [addNew, hcond, if_true]
      rw [hstep, ih, lookupKey_append]
      cases hws : lookupKey ws k with
      | some v => simp
      | none =>
        have hmf : matchesExt ext file = true := by
          have hc := hcond
          simp only [Bool.and_eq_true] at hc
          exact hc.1
        by_cases hfk : file = k
        · subst hfk
          simp [lookupKey, hmf]
        · have hkf : ¬ (k = file) := fun h => hfk h.symm
          have hbe : (file == k) = false := beq_eq_false_iff_ne.2 hfk
          simp [lookupKey, hbe, List.mem_cons, hkf]
    | false =>
      have hstep : addNew ext (file :: rest) ws = addNew ext rest ws := by
        simp only [addNew, hcond, Bool.false_eq_true, if_false]
      rw [hstep, ih]
      cases hws : lookupKey ws k with
      | some v => simp
      | none =>
        by_cases hfk : k = file
        · subst hfk
          have hnk : hasKey ws k = false := (hasKey_false_iff ws k).2 hws
          have hmf : matchesExt ext k = false := by
            rcases Bool.and_eq_false_iff.1 hcond with h | h
            · exact h
            · rw [hnk] at h
              simp at h
          simp [hmf, List.mem_cons]
        · simp [List.mem_cons, hfk]

/-! ### Lemmas about the removal phase -/

theorem removeFold_eq_filter (listing : List String) :
    ∀ (ks : List String) (acc : WatchSet),
      (∀ p ∈ acc, listing.contains p.1 = false → p.1 ∈ ks) →
      ks.foldl
        (fun acc k =>
          if listing.contains k then acc else acc.filter (fun p => !(p.1 == k)))
        acc = acc.filter (fun p => listing.contains p.1) := by
  intro ks
  induction ks with
  | nil =>
    intro acc h
    simp only [List.foldl_nil]
    symm
    apply List.filter_eq_self.2
    intro p hp
    cases hcp : listing.contains p.1 with
    | true => rfl
    | false => exact absurd (h p hp hcp) (List.not_mem_nil _)
  | cons k ks ih =>
    intro acc h
    simp only [List.foldl_cons]
    by_cases hk : listing.contains k = true
    · rw [if_pos hk]
      apply ih
      intro p hp hc
      rcases List.mem_cons.1 (h p hp hc) with h1 | h1
      · exfalso
        rw [h1, hk] at hc
        cases hc
      · exact h1
    · rw [if_neg hk]
      have hsub : ∀ p ∈ acc.filter (fun p => !(p.1 == k)),
          listing.contains p.1 = false → p.1 ∈ ks := by
        intro p hp hc
        have hpacc := List.mem_filter.1 hp
        rcases List.mem_cons.1 (h p hpacc.1 hc) with h1 | h1
        · exfalso
          have hne := hpacc.2
          rw [h1] at hne
          simp at hne
        · exact h1
      rw [ih _ hsub, List.filter_filter]
      apply List.filter_congr
      intro p hp
      cases hcp : listing.contains p.1 with
      | false => simp
      | true =>
        have hne : (p.1 == k) = false := by
          apply beq_eq_false_iff_ne.2
          intro he
          exact hk (he ▸ hcp)
        simp [hne]

theorem removeGone_eq_filter (listing : List String) (ws : WatchSet) :
    removeGone listing ws = ws.filter (fun p => listing.contains p.1) := by
  apply removeFold_eq_filter
  intro p hp _
  exact List.mem_map_of_mem Prod.fst hp

theorem lookupKey_filter_of_contains (listing : List String) (ws : WatchSet)
    (k : String) (h : listing.contains k = true) :
    lookupKey (ws.filter (fun p => listing.contains p.1)) k = lookupKey ws k := by
  induction ws with
  | nil => rfl
  | cons p rest ih =>
    obtain ⟨n, off⟩ := p
    simp only [List.filter_cons]
    by_cases hnk : (n == k) = true
    · have hn : n = k := eq_of_beq hnk
      subst hn
      rw [if_pos h]
      simp only [lookupKey, if_pos hnk]
    · by_cases hcn : listing.contains n = true
      · rw [if_pos hcn]
        simp only [lookupKey, if_neg hnk]
        exact ih
      · rw [if_neg hcn]
        simp only [lookupKey, if_neg hnk]
        exact ih

theorem lookupKey_filter_of_not_contains (listing : List String) (ws : WatchSet)
    (k : String) (h : listing.contains k = false) :
    lookupKey (ws.filter (fun p => listing.contains p.1)) k = none := by
  induction ws with
  | nil => rfl
  | cons p rest ih =>
    obtain ⟨n, off⟩ := p
    simp only [List.filter_cons]
    by_cases hcn : listing.contains n = true
    · have hnk : ¬ ((n == k) = true) := by
        intro hb
        have he : n = k := eq_of_beq hb
        rw [he, h] at hcn
        cases hcn
      rw [if_pos hcn]
      simp only [lookupKey, if_neg hnk]
      exact ih
    · rw [if_neg hcn]
      exact ih

/-! ### Lemmas about the scanning phase -/

theorem scanWatched_all_some (fs : String → Option (List Line)) (magic : List Char) :
    ∀ (ws : WatchSet), (∀ p ∈ ws, (fs p.1).isSome = true) →
      (scanWatched fs magic ws).ws =
        ws.map (fun p => (p.1, scanReturn ((fs p.1).getD []))) ∧
      (scanWatched fs magic ws).err = none := by
  intro ws
  induction ws with
  | nil => intro _; exact ⟨rfl, rfl⟩
  | cons p rest ih =>
    intro h
    obtain ⟨n, off⟩ := p
    have hn : (fs n).isSome = true := h (n, off) (List.mem_cons_self _ _)
    cases hfs : fs n with
    | none =>
      rw [hfs] at hn
      cases hn
    | some content =>
      have hrest : ∀ p ∈ rest, (fs p.1).isSome = true :=
        fun p hp => h p (List.mem_cons_of_mem _ hp)
      obtain ⟨ih1, ih2⟩ := ih hrest
      refine ⟨?_, ?_⟩ <;>
        simp [scanWatched, hfs, ih1, ih2]

theorem scanWatched_stops_at_err (fs : String → Option (List Line)) (magic : List Char)
    (bad : String) (off : Nat) (hbad : fs bad = none) :
    ∀ (pre post : WatchSet), (∀ p ∈ pre, (fs p.1).isSome = true) →
      (scanWatched fs magic (pre ++ (bad, off) :: post)).ws =
        pre.map (fun p => (p.1, scanReturn ((fs p.1).getD []))) ++ (bad, off) :: post ∧
      (scanWatched fs magic (pre ++ (bad, off) :: post)).err = some bad := by
  intro pre
  induction pre with
  | nil =>
    intro post _
    refine ⟨?_, ?_⟩ <;>
      simp [scanWatched, hbad]
  | cons p pre ih =>
    intro post h
    obtain ⟨n, noff⟩ := p
    have hn : (fs n).isSome = true := h (n, noff) (List.mem_cons_self _ _)
    cases hfs : fs n with
    | none =>
      rw [hfs] at hn
      cases hn
    | some content =>
      have hpre : ∀ p ∈ pre, (fs p.1).isSome = true :=
        fun p hp => h p (List.mem_cons_of_mem _ hp)
      obtain ⟨ih1, ih2⟩ := ih post hpre
      refine ⟨?_, ?_⟩ <;>
        simp [scanWatched, hfs, ih1, ih2]

theorem scanWatched_offsets (fs : String → Option (List Line)) (magic : List Char) :
    ∀ (ws : WatchSet), (∀ p ∈ ws, 1 ≤ p.2) →
      ∀ p ∈ (scanWatched fs magic ws).ws, 1 ≤ p.2 := by
  intro ws
  induction ws with
  | nil =>
    intro _ p hp
    cases hp
  | cons q rest ih =>
    intro h p hp
    obtain ⟨n, off⟩ := q
    cases hfs : fs n with
    | none =>
      simp only [scanWatched, hfs] at hp
      exact h p hp
    | some content =>
      have hrest : ∀ p ∈ rest, 1 ≤ p.2 :=
        fun p hp => h p (List.mem_cons_of_mem _ hp)
      simp only [scanWatched, hfs] at hp
      rcases List.mem_cons.1 hp with h1 | h1
      · rw [h1]
        exact scanReturn_pos content
      · exact ih hrest p h1

theorem lookupKey_map_key (g : String → Nat) :
    ∀ (ws : WatchSet) (k : String) (off : Nat), lookupKey ws k = some off →
      lookupKey (ws.map (fun p => (p.1, g p.1))) k = some (g k) := by
  intro ws
  induction ws with
  | nil =>
    intro k off h
    cases h
  | cons p rest ih =>
    intro k off h
    obtain ⟨n, noff⟩ := p
    by_cases hnk : (n == k) = true
    · have hn : n = k := eq_of_beq hnk
      subst hn
      simp only [List.map_cons, lookupKey, if_pos hnk]
    · simp only [lookupKey, if_neg hnk] at h
      simp only [List.map_cons, lookupKey, if_neg hnk]
      exact ih k off h

theorem addNew_offsets (ext : String) :
    ∀ (ls : List String) (ws : WatchSet), (∀ p ∈ ws, 1 ≤ p.2) →
      ∀ q ∈ addNew ext ls ws, 1 ≤ q.2 := by
  intro ls
  induction ls with
  | nil =>
    intro ws h q hq
    exact h q hq
  | cons file rest ih =>
    intro ws h q hq
    by_cases hc : (matchesExt ext file && !(hasKey ws file)) = true
    · rw [show addNew ext (file :: rest) ws = addNew ext rest (ws ++ [(file, 1)]) from by
        simp only [addNew, if_pos hc]] at hq
      refine ih _ ?_ q hq
      intro r hr
      rcases List.mem_append.1 hr with h1 | h1
      · exact h r h1
      · rw [List.mem_singleton.1 h1]
    · rw [show addNew ext (file :: rest) ws = addNew ext rest ws from by
        simp only [addNew, if_neg hc]] at hq
      exact ih ws h q hq

/-! ### Lemmas about the run loop -/

theorem runStep_exit (s : RunState) (e : RunEvent) (h : s.exit_flag = true) :
    (runStep s e).exit_flag = true ∧ (runStep s e).cyclesStarted = s.cyclesStarted := by
  cases e with
  | sig => exact ⟨rfl, rfl⟩
  | iter =>
    simp only [runStep, loopStep]
    by_cases hs : s.stopped = true
    · rw [if_pos hs]
      exact ⟨h, rfl⟩
    · rw [if_neg hs, h, if_pos rfl]
      exact ⟨rfl, rfl⟩

theorem runTrace_exit (evs : List RunEvent) :
    ∀ (s : RunState), s.exit_flag = true →
      (runTrace s evs).exit_flag = true ∧
      (runTrace s evs).cyclesStarted = s.cyclesStarted := by
  induction evs with
  | nil =>
    intro s h
    exact ⟨h, rfl⟩
  | cons e evs ih =>
    intro s h
    obtain ⟨h1, h2⟩ := runStep_exit s e h
    have := ih (runStep s e) h1
    simp only [runTrace, List.foldl_cons] at this ⊢
    exact ⟨this.1, by rw [this.2, h2]⟩

/-! ### Claim theorems -/

/-- Claim C1 (counterexample): the claim says a scan failure on one file
leaves the other files of the cycle scanned and updated.  In the code the
exception aborts the `for f in watched_files` loop: with `a.txt` failing
first, `b.txt` keeps offset 1 even though its current content has 3 lines,
so it was not scanned and not updated to offset 3. -/
theorem C1_counterexample :
    lookupKey (scanWatched
      (fun m => if m == "b.txt" then some ["x".toList, "y".toList, "z".toList] else none)
      "magic".toList [("a.txt", 2), ("b.txt", 1)]).ws "b.txt" = some 1 ∧
    scanReturn ["x".toList, "y".toList, "z".toList] = 3 ∧
    ¬ (lookupKey (scanWatched
      (fun m => if m == "b.txt" then some ["x".toList, "y".toList, "z".toList] else none)
      "magic".toList [("a.txt", 2), ("b.txt", 1)]).ws "b.txt" = some 3) := by
  refine ⟨rfl, rfl, ?_⟩
  decide

/-- Claim C1 (amended): when scanning file `bad` raises an I/O error
mid-cycle, the files scanned before it keep their updated offsets, while
`bad` itself and every file after it in iteration order keep their prior
offsets (the exception aborts the rest of the scan loop; they are retried
next cycle). -/
theorem C1_error_aborts_cycle (fs : String → Option (List Line)) (magic : List Char)
    (pre post : WatchSet) (bad : String) (off : Nat)
    (hpre : ∀ p ∈ pre, (fs p.1).isSome = true) (hbad : fs bad = none) :
    (scanWatched fs magic (pre ++ (bad, off) :: post)).ws =
      pre.map (fun p => (p.1, scanReturn ((fs p.1).getD []))) ++ (bad, off) :: post ∧
    (scanWatched fs magic (pre ++ (bad, off) :: post)).err = some bad :=
  scanWatched_stops_at_err fs magic bad off hbad pre post hpre

/-- Claim C1 (witness): the amended statement at a concrete cycle in which
`b.txt` is scanned first, `a.txt` fails, and `c.txt` follows. -/
theorem C1_witness :
    (scanWatched (fun m => if m == "b.txt" then some ["x".toList] else none)
      "magic".toList ([("b.txt", 1)] ++ ("a.txt", 2) :: [("c.txt", 4)])).ws =
      [("b.txt", (1 : Nat))].map
        (fun p => (p.1, scanReturn (((fun m => if m == "b.txt" then some ["x".toList] else none) p.1).getD [])))
        ++ ("a.txt", 2) :: [("c.txt", 4)] ∧
    (scanWatched (fun m => if m == "b.txt" then some ["x".toList] else none)
      "magic".toList ([("b.txt", 1)] ++ ("a.txt", 2) :: [("c.txt", 4)])).err = some "a.txt" :=
  C1_error_aborts_cycle _ "magic".toList [("b.txt", 1)] [("c.txt", 4)] "a.txt" 2
    (by decide) (by decide)

/-- Claim C2 (counterexample): the claim says scanning a file with zero
lines returns 0.  `scan_single_file` initialises `line_num = 0` before the
loop and returns `line_num + 1`, so on an empty file it returns 1. -/
theorem C2_counterexample :
    (scan_single_file "magic".toList 0 []).2 = 1 ∧
    ¬ ((scan_single_file "magic".toList 0 []).2 = 0) := by
  exact ⟨rfl, by decide⟩

/-- Claim C2 (amended): for every start offset and term, `scan_single_file`
returns the total number of lines of the file when the file has at least
one line, and returns 1 (not 0) when the file has zero lines. -/
theorem C2_amended_scan_return (magic : List Char) (startLine : Nat)
    (content : List Line) :
    (scan_single_file magic startLine content).2 =
      if content.isEmpty then 1 else content.length := by
  cases content with
  | nil => rfl
  | cons l rest => simp [scan_single_file, scanReturn]

/-- Claim C3 (code bug evaluation): a newly discovered file enters the
watch set with offset 1, but the scan tests `line_num >= start_line` with
0-based `enumerate`, so 1-based line 1 (index 0) fails `0 >= 1` and is
never tested: a term occurring on line 1 of a new file is not reported. -/
theorem C3_first_line_never_tested :
    scan_single_file "magic".toList 1 ["magic on line one".toList] = ([], 1) ∧
    occursIn "magic".toList "magic on line one".toList = true := by
  exact ⟨rfl, rfl⟩

/-- Claim C4: reconciling a watch set whose members all match the filter
against a new snapshot `listing` yields membership exactly
`listing ∩ filter`; fresh matching names get offset 1; names present in
both keep their prior offset. -/
theorem C4_diff_completeness (ext : String) (listing : List String) (ws : WatchSet)
    (n : String) (off : Nat)
    (hws : ∀ p ∈ ws, matchesExt ext p.1 = true) :
    ((lookupKey (removeGone listing (addNew ext listing ws)) n).isSome = true ↔
      (n ∈ listing ∧ matchesExt ext n = true)) ∧
    (hasKey ws n = false → n ∈ listing → matchesExt ext n = true →
      lookupKey (removeGone listing (addNew ext listing ws)) n = some 1) ∧
    (lookupKey ws n = some off → n ∈ listing →
      lookupKey (removeGone listing (addNew ext listing ws)) n = some off) := by
  rw [removeGone_eq_filter]
  by_cases hmem : n ∈ listing
  · have hc : listing.contains n = true := List.elem_iff.2 hmem
    rw [lookupKey_filter_of_contains _ _ _ hc, lookupKey_addNew]
    cases hlk : lookupKey ws n with
    | some v =>
      have hme : matchesExt ext n = true :=
        hws (n, v) (mem_of_lookupKey_eq_some ws n v hlk)
      refine ⟨⟨fun _ => ⟨hmem, hme⟩, fun _ => rfl⟩, ?_, ?_⟩
      · intro h1 _ _
        rw [(hasKey_false_iff ws n).1 h1] at hlk
        cases hlk
      · intro h2 _
        cases h2
        rfl
    | none =>
      by_cases hme : matchesExt ext n = true
      · rw [if_pos ⟨hmem, hme⟩]
        refine ⟨⟨fun _ => ⟨hmem, hme⟩, fun _ => rfl⟩, ?_, ?_⟩
        · intro _ _ _
          rfl
        · intro h2
          cases h2
      · rw [if_neg (fun hcontra => hme hcontra.2)]
        refine ⟨⟨fun habs => Bool.noConfusion habs, fun hcontra => absurd hcontra.2 hme⟩, ?_, ?_⟩
        · intro _ _ hme'
          exact absurd hme' hme
        · intro h2
          cases h2
  · have hc : listing.contains n = false := by
      cases hcc : listing.contains n with
      | true => exact absurd (List.elem_iff.1 hcc) hmem
      | false => rfl
    rw [lookupKey_filter_of_not_contains _ _ _ hc]
    refine ⟨⟨fun habs => Bool.noConfusion habs, fun hcontra => absurd hcontra.1 hmem⟩, ?_, ?_⟩
    · intro _ hmem' _
      exact absurd hmem' hmem
    · intro _ hmem'
      exact absurd hmem' hmem

/-- Claim C4 (witness): the reconciliation characterisation at a concrete
snapshot, filter and empty prior watch set. -/
theorem C4_witness :
    ((lookupKey (removeGone ["a.txt"] (addNew ".txt" ["a.txt"] [])) "a.txt").isSome = true ↔
      ("a.txt" ∈ ["a.txt"] ∧ matchesExt ".txt" "a.txt" = true)) ∧
    (hasKey [] "a.txt" = false → "a.txt" ∈ ["a.txt"] → matchesExt ".txt" "a.txt" = true →
      lookupKey (removeGone ["a.txt"] (addNew ".txt" ["a.txt"] [])) "a.txt" = some 1) ∧
    (lookupKey [] "a.txt" = some 5 → "a.txt" ∈ ["a.txt"] →
      lookupKey (removeGone ["a.txt"] (addNew ".txt" ["a.txt"] [])) "a.txt" = some 5) :=
  C4_diff_completeness ".txt" ["a.txt"] [] "a.txt" 5 (by decide)

/-- Claim C5: on a directory holding `a.txt` with lines
`alpha / beta magic / gamma` and term `magic`, the first cycle emits
exactly one match, at `a.txt` line 2, and stores offset 3; a second cycle
over unchanged content starting from offset 3 emits no matches. -/
theorem C5_scenario :
    watch_directory
      (fun m => if m == "a.txt" then some ["alpha".toList, "beta magic".toList, "gamma".toList] else none)
      ".txt" "magic".toList ["a.txt"] []
      = ⟨[("a.txt", 3)], [("a.txt", 2)], none⟩ ∧
    watch_directory
      (fun m => if m == "a.txt" then some ["alpha".toList, "beta magic".toList, "gamma".toList] else none)
      ".txt" "magic".toList ["a.txt"] [("a.txt", 3)]
      = ⟨[("a.txt", 3)], [], none⟩ := by
  exact ⟨rfl, rfl⟩

/-- Claim C6 (counterexample): the claim says the stored offset never
decreases for every sequence of contents, including shrinking ones.  With
stored offset 5 and current content of 2 lines, the scan stores
`scanReturn = 2 < 5`. -/
theorem C6_counterexample :
    (scanWatched (fun m => if m == "a.txt" then some ["one".toList, "two".toList] else none)
      "magic".toList [("a.txt", 5)]).ws = [("a.txt", 2)] ∧ 2 < 5 := by
  exact ⟨rfl, by decide⟩

/-- Claim C6 (amended): across one cycle in which every watched file is
readable and the file's current line count is at least its stored offset
(in particular for append-only content), the stored offset does not
decrease, and becomes the file's line count as returned by the scan. -/
theorem C6_amended_monotone (fs : String → Option (List Line)) (magic : List Char)
    (ws : WatchSet) (n : String) (off : Nat)
    (hok : ∀ p ∈ ws, (fs p.1).isSome = true)
    (hlk : lookupKey ws n = some off)
    (hgrow : off ≤ ((fs n).getD []).length) :
    lookupKey (scanWatched fs magic ws).ws n = some (scanReturn ((fs n).getD [])) ∧
    off ≤ scanReturn ((fs n).getD []) := by
  obtain ⟨h1, _⟩ := scanWatched_all_some fs magic ws hok
  constructor
  · rw [h1]
    exact lookupKey_map_key (fun m => scanReturn ((fs m).getD [])) ws n off hlk
  · exact le_trans hgrow (length_le_scanReturn _)

/-- Claim C6 (witness): the amended statement at a concrete growing file
(offset 2, current content 3 lines). -/
theorem C6_witness :
    lookupKey (scanWatched
      (fun m => if m == "a.txt" then some ["x".toList, "y".toList, "z".toList] else none)
      "magic".toList [("a.txt", 2)]).ws "a.txt"
      = some (scanReturn (((fun m => if m == "a.txt" then some ["x".toList, "y".toList, "z".toList] else none) "a.txt").getD [])) ∧
    2 ≤ scanReturn (((fun m => if m == "a.txt" then some ["x".toList, "y".toList, "z".toList] else none) "a.txt").getD []) :=
  C6_amended_monotone _ "magic".toList [("a.txt", 2)] "a.txt" 2
    (by decide) (by decide) (by decide)

/-- Claim C7: the removal step folds over a snapshot of the watch set's
keys taken before any mutation (Python 2's `watched_files.keys()` returns
a fresh list), and for every listing and every watch-set state it is a
total function computing exactly the declarative removal: the entries
whose names are absent from the listing are dropped and nothing else
changes, so reconciliation never fails on mutation-during-iteration. -/
theorem C7_snapshot_removal (listing : List String) (ws : WatchSet) :
    removeGone listing ws = ws.filter (fun p => listing.contains p.1) :=
  removeGone_eq_filter listing ws

/-- Claim C8: rescanning unchanged content starting from the offset the
first scan returned emits zero match events, for every content, term and
first start offset. -/
theorem C8_idempotent_rescan (magic : List Char) (startA : Nat) (content : List Line) :
    (scan_single_file magic (scan_single_file magic startA content).2 content).1 = [] := by
  show scanLines magic (scanReturn content) 0 content = []
  apply scanLines_eq_nil
  simpa using length_le_scanReturn content

/-- Claim C9: once `exit_flag` is set, it stays set across every further
signal delivery and loop iteration, and no further poll cycle begins (the
count of started cycles is unchanged).  Cycles are atomic steps of the
trace, matching the code: the flag is only consulted by the `while not
exit_flag` test between cycles, and `signal_handler` only sets it. -/
theorem C9_shutdown_boundary (s : RunState) (evs : List RunEvent)
    (h : s.exit_flag = true) :
    (runTrace s evs).exit_flag = true ∧
    (runTrace s evs).cyclesStarted = s.cyclesStarted :=
  runTrace_exit evs s h

/-- Claim C9 (witness): the shutdown boundary at a concrete state with the
flag set and a trace of two loop iterations and one further signal. -/
theorem C9_witness :
    (runTrace ⟨true, false, 5⟩ [RunEvent.iter, RunEvent.sig, RunEvent.iter]).exit_flag = true ∧
    (runTrace ⟨true, false, 5⟩ [RunEvent.iter, RunEvent.sig, RunEvent.iter]).cyclesStarted = 5 :=
  C9_shutdown_boundary ⟨true, false, 5⟩ [RunEvent.iter, RunEvent.sig, RunEvent.iter] rfl

/-- Claim C10: if every offset stored in the watch set is at least 1, then
after a full `watch_directory` cycle (additions at offset 1, removals,
scans storing `scan_single_file`'s return value, which is at least 1 even
for an empty file) every stored offset is still at least 1. -/
theorem C10_offsets_positive (fs : String → Option (List Line)) (ext : String)
    (magic : List Char) (listing : List String) (ws : WatchSet)
    (hws : ∀ p ∈ ws, 1 ≤ p.2)
    (p : String × Nat) (hp : p ∈ (watch_directory fs ext magic listing ws).ws) :
    1 ≤ p.2 := by
  refine scanWatched_offsets fs magic (removeGone listing (addNew ext listing ws)) ?_ p hp
  intro q hq
  rw [removeGone_eq_filter] at hq
  exact addNew_offsets ext listing ws hws q (List.mem_filter.1 hq).1

/-- Claim C10 (witness): a concrete cycle (fresh file discovered and
scanned) whose stored offset the theorem bounds below by 1. -/
theorem C10_witness : 1 ≤ (("a.txt", 3) : String × Nat).2 :=
  C10_offsets_positive
    (fun m => if m == "a.txt" then some ["x".toList, "y".toList, "z".toList] else none)
    ".txt" "magic".toList ["a.txt"] [] (by decide) ("a.txt", 3) (by decide)

end Dirwatcher

